import Mathlib

/-!
Verification of the benzenoid enumeration core (`benzenoid_generator.py`).

A benzenoid system is a list of hexagon coordinates, pairs of integers on an
axial hexagonal lattice.  The Python code canonicalizes a system by taking the
lexicographically least translation-normalized image among the twelve symmetry
images (six rotations, with and without a reflection), and enumerates all
systems with a given number of hexagons by repeated one-hexagon growth,
deduplicating through the canonical form.

Embedding conventions.  Coordinates are `Int × Int`; a system is a
`List (Int × Int)`.  Python's `min` over an empty sequence raises, so the
functions that can only fail there (`to_canonical_trans`, `to_canonical`)
return an `Option`, with `none` exactly on the empty input; `ctr` and
`canonAux` hold the computation performed on a non-empty input.  Python's
`sorted` on tuples is sorting by the lexicographic order `rle`; since `rle`
is a total order (antisymmetric), any sorted arrangement of a given multiset
is unique, so `List.insertionSort` computes exactly Python's result.
Python's `min` over a list of lists is `pyminList` (fold keeping the earlier
element on ties), with `llt` the Boolean strict lexicographic comparison that
mirrors Python's `<` on lists of integer pairs.  The set produced inside
`list_of_benzenoids` is modelled as a `Finset`, which forgets the unspecified
iteration order of a Python set but keeps its membership and cardinality.
-/

namespace Benzenoid

/-- Strict comparison of coordinate pairs, Python's `<` on 2-tuples of ints. -/
def pairLt (a b : Int × Int) : Bool :=
  a.1 < b.1 || (decide (a.1 = b.1) && a.2 < b.2)

/-- Strict lexicographic comparison of coordinate lists, Python's `<` on
lists of 2-tuples: a strict prefix is smaller, otherwise the first differing
entry decides. -/
def llt : List (Int × Int) → List (Int × Int) → Bool
  | [], [] => false
  | [], _ :: _ => true
  | _ :: _, [] => false
  | a :: as, b :: bs => pairLt a b || (decide (a = b) && llt as bs)

/-- Non-strict lexicographic order on coordinate pairs, the order used by
Python's `sorted` on tuples. -/
def rle (a b : Int × Int) : Prop :=
  a.1 < b.1 ∨ (a.1 = b.1 ∧ a.2 ≤ b.2)

instance instDecRle : DecidableRel rle := fun a b =>
  inferInstanceAs (Decidable (a.1 < b.1 ∨ (a.1 = b.1 ∧ a.2 ≤ b.2)))

instance instAntisymmIntLe : Std.Antisymm ((· : Int) ≤ ·) :=
  ⟨fun h1 h2 => Int.le_antisymm h1 h2⟩

instance instTotalRle : IsTotal (Int × Int) rle :=
  ⟨fun a b => by unfold rle; omega⟩

instance instTransRle : IsTrans (Int × Int) rle :=
  ⟨fun a b c => by unfold rle; omega⟩

instance instAntisymmRle : IsAntisymm (Int × Int) rle := by
  constructor
  intro a b h h'
  unfold rle at h h'
  rcases a with ⟨a1, a2⟩
  rcases b with ⟨b1, b2⟩
  simp only at h h'
  simp only [Prod.mk.injEq]
  omega

/-- Computation of `to_canonical_trans` on a non-empty system: subtract the
per-axis minima (Python `min(i for (i, j) in b)` is a fold of `min` over the
first coordinates, likewise for `j`) from every coordinate and sort the result;
`ctr [] = []` is never reached by the Python code, which raises there. -/
def ctr : List (Int × Int) → List (Int × Int)
  | [] => []
  | p :: ps =>
      let iMin := ps.foldl (fun m q => min m q.1) p.1
      let jMin := ps.foldl (fun m q => min m q.2) p.2
      List.insertionSort rle ((p :: ps).map (fun q => (q.1 - iMin, q.2 - jMin)))

/-- Python `to_canonical_trans(b)`: translate the system so that the minimum
`i` and minimum `j` become `0` and sort; on the empty list Python's `min`
raises, modelled by `none`. -/
def to_canonical_trans (b : List (Int × Int)) : Option (List (Int × Int)) :=
  match b with
  | [] => none
  | p :: ps => some (ctr (p :: ps))

/-- Action of the 60-degree counter-clockwise rotation on one coordinate. -/
def rotPt (q : Int × Int) : Int × Int := (q.1 + q.2, -q.1)

/-- Python `rotation_60(b)`: the list comprehension `[(i + j, -i) for (i, j) in b]`. -/
def rotation_60 (b : List (Int × Int)) : List (Int × Int) := b.map rotPt

/-- Action of the reflection on one coordinate. -/
def refPt (q : Int × Int) : Int × Int := (-q.1, q.1 + q.2)

/-- Python `reflection(b)`: the list comprehension `[(-i, i + j) for (i, j) in b]`. -/
def reflection (b : List (Int × Int)) : List (Int × Int) := b.map refPt

/-- Python `min` over a non-empty list of systems, processed as initial
element plus remainder; on a tie the earlier element is kept, exactly as
Python's `min` does. -/
def pyminList (m : List (Int × Int)) : List (List (Int × Int)) → List (Int × Int)
  | [] => m
  | x :: xs => pyminList (if llt x m then x else m) xs

/-- Python `min` of two systems: the second is returned only when strictly
smaller. -/
def pymin2 (a c : List (Int × Int)) : List (Int × Int) :=
  if llt c a then c else a

/-- Computation of `to_canonical` on a non-empty system: the chain `l` of six
translation-normalized rotation images, the chain `r` of the six images of the
reflected system, and the least of the twelve, exactly as the Python loop
builds them (each next image normalizes the rotation of the previous
normalized image). -/
def canonAux (b : List (Int × Int)) : List (Int × Int) :=
  let l0 := ctr b
  let r0 := ctr (reflection b)
  let l1 := ctr (rotation_60 l0)
  let r1 := ctr (rotation_60 r0)
  let l2 := ctr (rotation_60 l1)
  let r2 := ctr (rotation_60 r1)
  let l3 := ctr (rotation_60 l2)
  let r3 := ctr (rotation_60 r2)
  let l4 := ctr (rotation_60 l3)
  let r4 := ctr (rotation_60 r3)
  let l5 := ctr (rotation_60 l4)
  let r5 := ctr (rotation_60 r4)
  pymin2 (pyminList l0 [l1, l2, l3, l4, l5]) (pyminList r0 [r1, r2, r3, r4, r5])

/-- Python `to_canonical(b)`: the least of the twelve normalized symmetry
images of `b`.  On the empty system the very first `to_canonical_trans` call
raises, modelled by `none`; on a non-empty system every internal
`to_canonical_trans` call receives a non-empty list and succeeds, so the
result is exactly `canonAux b`. -/
def to_canonical (b : List (Int × Int)) : Option (List (Int × Int)) :=
  match b with
  | [] => none
  | _ :: _ => some (canonAux b)

/-- Python `are_isomorphic(b1, b2)`: equality of canonical forms. -/
def are_isomorphic (b1 b2 : List (Int × Int)) : Prop :=
  to_canonical b1 = to_canonical b2

/-- Python `neighbours(h)`: the six lattice-adjacent cells of `h = (i, j)`. -/
def neighbours (h : Int × Int) : List (Int × Int) :=
  [(h.1 + 1, h.2), (h.1 + 1, h.2 - 1), (h.1, h.2 - 1),
   (h.1 - 1, h.2), (h.1 - 1, h.2 + 1), (h.1, h.2 + 1)]

/-- Python `layer_of_fat(b)`: the set of cells adjacent to some hexagon of `b`
but not in `b`.  The Python function returns `list(f)` in unspecified order;
the `Finset` keeps exactly the membership content of the set `f`. -/
def layer_of_fat (b : List (Int × Int)) : Finset (Int × Int) :=
  (b.toFinset.biUnion (fun h => (neighbours h).toFinset)).filter (fun n => n ∉ b)

/-- One pass of the growth loop of `list_of_benzenoids`: every system of the
current collection is extended by every cell of its layer of fat, and the
canonical forms are collected into a set. -/
def growStep (l : Finset (List (Int × Int))) : Finset (List (Int × Int)) :=
  l.biUnion (fun b => (layer_of_fat b).image (fun hex => canonAux (b ++ [hex])))

/-- State of `list_of_benzenoids` after `n` iterations of the growth loop,
starting from the single benzene system `[(0, 0)]`. -/
def benzenoidStep : Nat → Finset (List (Int × Int))
  | 0 => {[((0 : Int), (0 : Int))]}
  | n + 1 => growStep (benzenoidStep n)

/-- Python `list_of_benzenoids(h)`: the loop `for i in range(h - 1)` runs
`max (h - 1) 0` times, so the iteration count is `(h - 1).toNat`; the result
is the set of canonical systems produced, modelled as a `Finset`. -/
def list_of_benzenoids (h : Int) : Finset (List (Int × Int)) :=
  benzenoidStep (h - 1).toNat

/-- Translation of a system by an integer vector, the reference operation for
the translation-invariance properties. -/
def translate (d : Int × Int) (b : List (Int × Int)) : List (Int × Int) :=
  b.map (fun q => (q.1 + d.1, q.2 + d.2))

/-- Iterated application of `rotation_60`. -/
def rotN : Nat → List (Int × Int) → List (Int × Int)
  | 0, b => b
  | n + 1, b => rotation_60 (rotN n b)

/-- The twelve normalized symmetry images of a system: the six rotational
images and the six rotational images of the reflection. -/
def orbitList (b : List (Int × Int)) : List (List (Int × Int)) :=
  [ctr b, ctr (rotation_60 b), ctr (rotation_60 (rotation_60 b)),
   ctr (rotation_60 (rotation_60 (rotation_60 b))),
   ctr (rotation_60 (rotation_60 (rotation_60 (rotation_60 b)))),
   ctr (rotation_60 (rotation_60 (rotation_60 (rotation_60 (rotation_60 b)))))] ++
  [ctr (reflection b), ctr (rotation_60 (reflection b)),
   ctr (rotation_60 (rotation_60 (reflection b))),
   ctr (rotation_60 (rotation_60 (rotation_60 (reflection b)))),
   ctr (rotation_60 (rotation_60 (rotation_60 (rotation_60 (reflection b))))),
   ctr (rotation_60 (rotation_60 (rotation_60 (rotation_60 (rotation_60 (reflection b))))))]

/-- Being the minimum of a collection of systems: membership together with
being `llt`-below-or-equal every member. -/
def IsMinOf (m : List (Int × Int)) (s : List (List (Int × Int))) : Prop :=
  m ∈ s ∧ ∀ x ∈ s, llt x m = false

/-! Order facts about the Boolean comparisons `pairLt` and `llt`. -/

/-- Membership form of `pairLt`. -/
theorem pairLt_iff (a b : Int × Int) :
    pairLt a b = true ↔ (a.1 < b.1 ∨ (a.1 = b.1 ∧ a.2 < b.2)) := by
  simp [pairLt]

/-- Irreflexivity of the strict pair comparison. -/
theorem pairLt_irrefl (a : Int × Int) : pairLt a a = false := by
  simp [pairLt]

/-- Transitivity of the strict pair comparison. -/
theorem pairLt_trans {a b c : Int × Int} (h1 : pairLt a b = true)
    (h2 : pairLt b c = true) : pairLt a c = true := by
  rw [pairLt_iff] at h1 h2 ⊢
  omega

/-- Connectedness of the strict pair comparison: incomparable pairs are equal. -/
theorem pairLt_conn {a b : Int × Int} (h1 : pairLt a b = false)
    (h2 : pairLt b a = false) : a = b := by
  have h1' : ¬ (pairLt a b = true) := by simp [h1]
  have h2' : ¬ (pairLt b a = true) := by simp [h2]
  rw [pairLt_iff] at h1' h2'
  rcases a with ⟨a1, a2⟩
  rcases b with ⟨b1, b2⟩
  simp only [Prod.mk.injEq]
  simp only at h1' h2'
  omega

/-- Irreflexivity of the strict list comparison. -/
theorem llt_irrefl : ∀ x : List (Int × Int), llt x x = false
  | [] => rfl
  | a :: as => by simp [llt, pairLt_irrefl, llt_irrefl as]

/-- Transitivity of the strict list comparison. -/
theorem llt_trans : ∀ {x y z : List (Int × Int)},
    llt x y = true → llt y z = true → llt x z = true
  | [], [], _, h1, _ => by simp [llt] at h1
  | [], _ :: _, [], _, h2 => by simp [llt] at h2
  | [], _ :: _, _ :: _, _, _ => rfl
  | _ :: _, [], _, h1, _ => by simp [llt] at h1
  | _ :: _, _ :: _, [], _, h2 => by simp [llt] at h2
  | a :: as, b :: bs, c :: cs, h1, h2 => by
      simp only [llt, Bool.or_eq_true, Bool.and_eq_true, decide_eq_true_eq] at h1 h2 ⊢
      rcases h1 with h1 | ⟨rfl, h1⟩
      · rcases h2 with h2 | ⟨rfl, h2⟩
        · exact Or.inl (pairLt_trans h1 h2)
        · exact Or.inl h1
      · rcases h2 with h2 | ⟨rfl, h2⟩
        · exact Or.inl h2
        · exact Or.inr ⟨rfl, llt_trans h1 h2⟩

/-- Connectedness of the strict list comparison: incomparable lists are equal. -/
theorem llt_conn : ∀ {x y : List (Int × Int)},
    llt x y = false → llt y x = false → x = y
  | [], [], _, _ => rfl
  | [], _ :: _, h1, _ => by simp [llt] at h1
  | _ :: _, [], _, h2 => by simp [llt] at h2
  | a :: as, b :: bs, h1, h2 => by
      simp only [llt, Bool.or_eq_false_iff, Bool.and_eq_false_iff,
        decide_eq_false_iff_not] at h1 h2
      have hab : a = b := pairLt_conn h1.1 h2.1
      subst hab
      rcases h1.2 with h | h
      · exact absurd rfl h
      · rcases h2.2 with h' | h'
        · exact absurd rfl h'
        · rw [llt_conn h h']

/-- Asymmetry of the strict list comparison. -/
theorem llt_asymm {x y : List (Int × Int)} (h : llt x y = true) : llt y x = false := by
  cases hyx : llt y x
  · rfl
  · have := llt_trans h hyx
    rw [llt_irrefl] at this
    exact this.symm

/-- Transitivity of the non-strict comparison read off from `llt`:
if `x` is not below `y` and `y` is not below `z` then `x` is not below `z`
(with `llt b a = false` read as `a` is below-or-equal `b`). -/
theorem llt_le_trans {x y z : List (Int × Int)} (h1 : llt y x = false)
    (h2 : llt z y = false) : llt z x = false := by
  cases hzx : llt z x
  · rfl
  · cases hyz : llt y z
    · have := llt_conn h2 hyz
      subst this
      rw [hzx] at h1
      exact h1
    · have := llt_trans hyz hzx
      rw [this] at h1
      exact h1

/-- A strict bound propagates through the non-strict comparison: if `x` is
below-or-equal `r` is false read as `r ≤ x`, and `x` is strictly below `m`,
then `m` is not strictly below `r`. -/
theorem llt_le_of_le_of_lt {r x m : List (Int × Int)} (h1 : llt x r = false)
    (h2 : llt x m = true) : llt m r = false := by
  cases hmr : llt m r
  · rfl
  · have := llt_trans h2 hmr
    rw [this] at h1
    exact h1

/-! Minimum selection: `pyminList` and `pymin2` compute the least element of
the collection they are given, with respect to the strict order `llt`. -/

/-- Being the minimum: membership together with being `llt`-below-or-equal
every element. -/
theorem pyminList_mem : ∀ (xs : List (List (Int × Int))) (m : List (Int × Int)),
    pyminList m xs = m ∨ pyminList m xs ∈ xs
  | [], _ => Or.inl rfl
  | x :: xs, m => by
      simp only [pyminList]
      rcases pyminList_mem xs (if llt x m then x else m) with h | h
      · rw [h]
        split
        · exact Or.inr (List.mem_cons_self _ _)
        · exact Or.inl rfl
      · exact Or.inr (List.mem_cons_of_mem _ h)

/-- The running minimum is below-or-equal the initial element and every listed
element. -/
theorem pyminList_min : ∀ (xs : List (List (Int × Int))) (m y : List (Int × Int)),
    (y = m ∨ y ∈ xs) → llt y (pyminList m xs) = false
  | [], m, y, hy => by
      rcases hy with heq | h
      · rw [heq]
        exact llt_irrefl m
      · simp at h
  | x :: xs, m, y, hy => by
      simp only [pyminList]
      by_cases hxm : llt x m = true
      · rw [if_pos hxm]
        rcases hy with heq | hy
        · rw [heq]
          exact llt_le_of_le_of_lt (pyminList_min xs x x (Or.inl rfl)) hxm
        · rcases List.mem_cons.mp hy with heq | hy
          · rw [heq]
            exact pyminList_min xs x x (Or.inl rfl)
          · exact pyminList_min xs x y (Or.inr hy)
      · rw [if_neg hxm]
        have hxm' : llt x m = false := by
          cases h : llt x m
          · rfl
          · exact absurd h hxm
        rcases hy with heq | hy
        · rw [heq]
          exact pyminList_min xs m m (Or.inl rfl)
        · rcases List.mem_cons.mp hy with heq | hy
          · rw [heq]
            exact llt_le_trans (pyminList_min xs m m (Or.inl rfl)) hxm'
          · exact pyminList_min xs m y (Or.inr hy)

/-- The value of `pyminList` is the minimum of the initial element together
with the list. -/
theorem pyminList_isMin (m : List (Int × Int)) (xs : List (List (Int × Int))) :
    IsMinOf (pyminList m xs) (m :: xs) := by
  constructor
  · rcases pyminList_mem xs m with h | h
    · rw [h]
      exact List.mem_cons_self _ _
    · exact List.mem_cons_of_mem _ h
  · intro y hy
    rcases List.mem_cons.mp hy with heq | hy
    · rw [heq]
      exact pyminList_min xs m m (Or.inl rfl)
    · exact pyminList_min xs m y (Or.inr hy)

/-- A strict bound below one side of a non-strict bound. -/
theorem llt_le_of_lt_of_le {c a y : List (Int × Int)} (h1 : llt c a = true)
    (h2 : llt y a = false) : llt y c = false := by
  cases h : llt y c
  · rfl
  · have := llt_trans h h1
    rw [this] at h2
    exact h2

/-- Python's two-argument `min` of the minima of two collections is the
minimum of their concatenation. -/
theorem pymin2_isMin {a c : List (Int × Int)} {s t : List (List (Int × Int))}
    (ha : IsMinOf a s) (hc : IsMinOf c t) : IsMinOf (pymin2 a c) (s ++ t) := by
  unfold pymin2
  by_cases h : llt c a = true
  · rw [if_pos h]
    refine ⟨List.mem_append.mpr (Or.inr hc.1), ?_⟩
    intro y hy
    rcases List.mem_append.mp hy with hy | hy
    · exact llt_le_of_lt_of_le h (ha.2 y hy)
    · exact hc.2 y hy
  · have h' : llt c a = false := by
      cases hca : llt c a
      · rfl
      · exact absurd hca h
    rw [if_neg h]
    refine ⟨List.mem_append.mpr (Or.inl ha.1), ?_⟩
    intro y hy
    rcases List.mem_append.mp hy with hy | hy
    · exact ha.2 y hy
    · exact llt_le_trans h' (hc.2 y hy)

/-- Minima of collections with the same members agree. -/
theorem isMinOf_unique {m m' : List (Int × Int)} {s s' : List (List (Int × Int))}
    (h : IsMinOf m s) (h' : IsMinOf m' s') (hss : ∀ x, x ∈ s ↔ x ∈ s') : m = m' :=
  llt_conn (h'.2 m ((hss m).mp h.1)) (h.2 m' ((hss m').mpr h'.1))

/-! Invariance of the translation normalization `ctr` under permutation and
translation of its input. -/

/-- Sorting two lists of coordinates that are permutations of each other gives
the same result, because `rle` is a total order. -/
theorem insertionSort_eq_of_perm {x y : List (Int × Int)} (h : x.Perm y) :
    List.insertionSort rle x = List.insertionSort rle y :=
  List.eq_of_perm_of_sorted
    ((List.perm_insertionSort rle x).trans (h.trans (List.perm_insertionSort rle y).symm))
    (List.sorted_insertionSort rle x) (List.sorted_insertionSort rle y)

/-- The minimum of a list of integers is invariant under permutation. -/
theorem intMin?_perm : ∀ {l₁ l₂ : List Int}, l₁.Perm l₂ → l₁.min? = l₂.min? := by
  intro l₁ l₂ h
  have hiff : ∀ (l : List Int) (a : Int),
      l.min? = some a ↔ a ∈ l ∧ ∀ b, b ∈ l → a ≤ b := by
    intro l a
    exact List.min?_eq_some_iff Int.le_refl (fun a b => min_choice a b)
      (fun a b c => le_min_iff)
  cases h1 : l₁.min? with
  | none =>
      rw [List.min?_eq_none_iff] at h1
      subst h1
      have h2 : l₂ = [] := (h.nil_eq).symm
      rw [h2]
      rfl
  | some a =>
      rw [hiff] at h1
      exact ((hiff l₂ a).mpr
        ⟨h.mem_iff.mp h1.1, fun b hb => h1.2 b (h.mem_iff.mpr hb)⟩).symm

/-- Python's `min` of the first coordinates, computed as a fold, is invariant
under permutation of the system. -/
theorem foldMinFst_perm {p q : Int × Int} {ps qs : List (Int × Int)}
    (h : (p :: ps).Perm (q :: qs)) :
    ps.foldl (fun m r => min m r.1) p.1 = qs.foldl (fun m r => min m r.1) q.1 := by
  have h1 : (p.1 :: ps.map Prod.fst).min? = (q.1 :: qs.map Prod.fst).min? := by
    have := intMin?_perm (h.map Prod.fst)
    simpa using this
  simp only [List.min?] at h1
  injection h1 with h1
  rw [List.foldl_map, List.foldl_map] at h1
  exact h1

/-- Python's `min` of the second coordinates, computed as a fold, is invariant
under permutation of the system. -/
theorem foldMinSnd_perm {p q : Int × Int} {ps qs : List (Int × Int)}
    (h : (p :: ps).Perm (q :: qs)) :
    ps.foldl (fun m r => min m r.2) p.2 = qs.foldl (fun m r => min m r.2) q.2 := by
  have h1 : (p.2 :: ps.map Prod.snd).min? = (q.2 :: qs.map Prod.snd).min? := by
    have := intMin?_perm (h.map Prod.snd)
    simpa using this
  simp only [List.min?] at h1
  injection h1 with h1
  rw [List.foldl_map, List.foldl_map] at h1
  exact h1

/-- The translation normalization depends only on the multiset of coordinates:
permuting the input system does not change its normalized form. -/
theorem ctr_perm : ∀ {x y : List (Int × Int)}, x.Perm y → ctr x = ctr y
  | [], [], _ => rfl
  | [], _ :: _, h => absurd (h.length_eq) (by simp)
  | _ :: _, [], h => absurd (h.length_eq) (by simp)
  | p :: ps, q :: qs, h => by
      simp only [ctr]
      rw [foldMinFst_perm h, foldMinSnd_perm h]
      exact insertionSort_eq_of_perm (h.map _)

/-- Unfolding of `translate` on a cons cell. -/
theorem translate_cons (d p : Int × Int) (ps : List (Int × Int)) :
    translate d (p :: ps) = (p.1 + d.1, p.2 + d.2) :: translate d ps := rfl

/-- The fold computing the minimum first coordinate commutes with translation. -/
theorem foldMinFst_translate (d : Int × Int) : ∀ (ps : List (Int × Int)) (a : Int),
    (translate d ps).foldl (fun m q => min m q.1) (a + d.1)
      = ps.foldl (fun m q => min m q.1) a + d.1
  | [], _ => rfl
  | x :: ps, a => by
      rw [translate_cons]
      simp only [List.foldl_cons]
      have hmin : min (a + d.1) ((x.1 + d.1, x.2 + d.2) : Int × Int).1 = min a x.1 + d.1 := by
        simp only
        omega
      rw [hmin]
      exact foldMinFst_translate d ps (min a x.1)

/-- The fold computing the minimum second coordinate commutes with translation. -/
theorem foldMinSnd_translate (d : Int × Int) : ∀ (ps : List (Int × Int)) (a : Int),
    (translate d ps).foldl (fun m q => min m q.2) (a + d.2)
      = ps.foldl (fun m q => min m q.2) a + d.2
  | [], _ => rfl
  | x :: ps, a => by
      rw [translate_cons]
      simp only [List.foldl_cons]
      have hmin : min (a + d.2) ((x.1 + d.1, x.2 + d.2) : Int × Int).2 = min a x.2 + d.2 := by
        simp only
        omega
      rw [hmin]
      exact foldMinSnd_translate d ps (min a x.2)

/-- Translation invariance of the normalization: translating every coordinate
by the same vector does not change `ctr`. -/
theorem ctr_translate (d : Int × Int) : ∀ (x : List (Int × Int)), ctr (translate d x) = ctr x
  | [] => rfl
  | p :: ps => by
      rw [translate_cons]
      simp only [ctr]
      rw [foldMinFst_translate d ps p.1, foldMinSnd_translate d ps p.2]
      rw [← translate_cons]
      congr 1
      rw [show translate d (p :: ps) = (p :: ps).map (fun q => (q.1 + d.1, q.2 + d.2)) from rfl]
      rw [List.map_map]
      apply List.map_congr_left
      intro q _
      simp only [Function.comp_apply, Prod.mk.injEq]
      omega

/-- The normalized form of a non-empty system is a permutation of a translate
of the system. -/
theorem ctr_perm_translate : ∀ (x : List (Int × Int)), x ≠ [] →
    ∃ d, (ctr x).Perm (translate d x)
  | [], h => absurd rfl h
  | p :: ps, _ => by
      simp only [ctr]
      refine ⟨(-(ps.foldl (fun m q => min m q.1) p.1),
               -(ps.foldl (fun m q => min m q.2) p.2)), ?_⟩
      generalize ps.foldl (fun m q => min m q.1) p.1 = i0
      generalize ps.foldl (fun m q => min m q.2) p.2 = j0
      refine (List.perm_insertionSort rle _).trans ?_
      have hmap : (p :: ps).map (fun q => (q.1 - i0, q.2 - j0))
          = translate (-i0, -j0) (p :: ps) := by
        rw [show translate (-i0, -j0) (p :: ps)
            = (p :: ps).map (fun q => (q.1 + -i0, q.2 + -j0)) from rfl]
        apply List.map_congr_left
        intro q _
        simp only [Prod.mk.injEq]
        omega
      rw [hmap]

/-! Algebra of the two symmetry generators: rotation and reflection are linear
on coordinates, so they commute with translation; the rotation has order six
and the reflection order two, with the dihedral exchange law between them. -/

/-- Rotation commutes with translation, rotating the translation vector. -/
theorem rot_translate (d : Int × Int) (x : List (Int × Int)) :
    rotation_60 (translate d x) = translate (rotPt d) (rotation_60 x) := by
  simp only [rotation_60, translate, List.map_map]
  apply List.map_congr_left
  intro q _
  simp only [Function.comp_apply, rotPt, Prod.mk.injEq]
  omega

/-- Reflection commutes with translation, reflecting the translation vector. -/
theorem refl_translate (d : Int × Int) (x : List (Int × Int)) :
    reflection (translate d x) = translate (refPt d) (reflection x) := by
  simp only [reflection, translate, List.map_map]
  apply List.map_congr_left
  intro q _
  simp only [Function.comp_apply, refPt, Prod.mk.injEq]
  omega

/-- Six rotations by sixty degrees are the identity. -/
theorem rot_six_fold (x : List (Int × Int)) :
    rotation_60 (rotation_60 (rotation_60 (rotation_60 (rotation_60 (rotation_60 x))))) = x := by
  simp only [rotation_60, List.map_map]
  conv_rhs => rw [← List.map_id x]
  apply List.map_congr_left
  intro q _
  rcases q with ⟨i, j⟩
  simp only [Function.comp_apply, rotPt, id_eq, Prod.mk.injEq]
  omega

/-- The reflection is an involution. -/
theorem refl_refl (x : List (Int × Int)) : reflection (reflection x) = x := by
  simp only [reflection, List.map_map]
  conv_rhs => rw [← List.map_id x]
  apply List.map_congr_left
  intro q _
  rcases q with ⟨i, j⟩
  simp only [Function.comp_apply, refPt, id_eq, Prod.mk.injEq]
  omega

/-- Dihedral exchange law: reflecting after one rotation equals five rotations
after reflecting. -/
theorem refl_rot (x : List (Int × Int)) :
    reflection (rotation_60 x)
      = rotation_60 (rotation_60 (rotation_60 (rotation_60 (rotation_60 (reflection x))))) := by
  simp only [reflection, rotation_60, List.map_map]
  apply List.map_congr_left
  intro q _
  rcases q with ⟨i, j⟩
  simp only [Function.comp_apply, rotPt, refPt, Prod.mk.injEq]
  omega

/-- Re-normalizing before a rotation does not change the normalized rotation:
the normalized form is a permuted translate of the input, and `ctr` ignores
both. -/
theorem ctr_rot_ctr : ∀ (x : List (Int × Int)),
    ctr (rotation_60 (ctr x)) = ctr (rotation_60 x)
  | [] => rfl
  | p :: ps => by
      obtain ⟨d, hperm⟩ := ctr_perm_translate (p :: ps) (by simp)
      have h1 : ctr (rotation_60 (ctr (p :: ps)))
          = ctr (rotation_60 (translate d (p :: ps))) :=
        ctr_perm (hperm.map rotPt)
      rw [h1, rot_translate, ctr_translate]

/-- The value computed by the Python rotation loop is the minimum of the
twelve-element orbit list. -/
theorem canonAux_isMin (b : List (Int × Int)) : IsMinOf (canonAux b) (orbitList b) := by
  simp only [canonAux, ctr_rot_ctr]
  exact pymin2_isMin (pyminList_isMin _ _) (pyminList_isMin _ _)

/-- The orbit of a rotated system has the same members as the orbit of the
system. -/
theorem orbit_rot_mem (b x : List (Int × Int)) :
    x ∈ orbitList (rotation_60 b) ↔ x ∈ orbitList b := by
  simp only [orbitList, refl_rot, rot_six_fold, List.cons_append, List.nil_append,
    List.mem_cons, List.not_mem_nil, or_false]
  tauto

/-- The orbit of a reflected system has the same members as the orbit of the
system. -/
theorem orbit_refl_mem (b x : List (Int × Int)) :
    x ∈ orbitList (reflection b) ↔ x ∈ orbitList b := by
  simp only [orbitList, refl_refl, List.cons_append, List.nil_append,
    List.mem_cons, List.not_mem_nil, or_false]
  tauto

/-- Rotating a system does not change the canonical computation. -/
theorem canonAux_rot (b : List (Int × Int)) : canonAux (rotation_60 b) = canonAux b :=
  isMinOf_unique (canonAux_isMin _) (canonAux_isMin _) (orbit_rot_mem b)

/-- Reflecting a system does not change the canonical computation. -/
theorem canonAux_refl (b : List (Int × Int)) : canonAux (reflection b) = canonAux b :=
  isMinOf_unique (canonAux_isMin _) (canonAux_isMin _) (orbit_refl_mem b)

/-- The orbit list depends only on the multiset of coordinates. -/
theorem orbitList_perm {x y : List (Int × Int)} (h : x.Perm y) :
    orbitList x = orbitList y := by
  have hr : ∀ {a c : List (Int × Int)}, a.Perm c → (rotation_60 a).Perm (rotation_60 c) :=
    fun hac => hac.map rotPt
  have hf : ∀ {a c : List (Int × Int)}, a.Perm c → (reflection a).Perm (reflection c) :=
    fun hac => hac.map refPt
  simp only [orbitList]
  rw [ctr_perm h, ctr_perm (hr h), ctr_perm (hr (hr h)), ctr_perm (hr (hr (hr h))),
    ctr_perm (hr (hr (hr (hr h)))), ctr_perm (hr (hr (hr (hr (hr h))))),
    ctr_perm (hf h), ctr_perm (hr (hf h)), ctr_perm (hr (hr (hf h))),
    ctr_perm (hr (hr (hr (hf h)))), ctr_perm (hr (hr (hr (hr (hf h))))),
    ctr_perm (hr (hr (hr (hr (hr (hf h))))))]

/-- The canonical computation depends only on the multiset of coordinates. -/
theorem canonAux_perm {x y : List (Int × Int)} (h : x.Perm y) : canonAux x = canonAux y :=
  isMinOf_unique (canonAux_isMin _) (canonAux_isMin _)
    (fun z => by rw [orbitList_perm h])

/-- The orbit list is invariant under translating the system. -/
theorem orbitList_translate (d : Int × Int) (x : List (Int × Int)) :
    orbitList (translate d x) = orbitList x := by
  simp only [orbitList, rot_translate, refl_translate, ctr_translate]

/-- The canonical computation is invariant under translating the system. -/
theorem canonAux_translate (d : Int × Int) (x : List (Int × Int)) :
    canonAux (translate d x) = canonAux x :=
  isMinOf_unique (canonAux_isMin _) (canonAux_isMin _)
    (fun z => by rw [orbitList_translate d x])

/-! Bridging lemmas between the `Option`-valued entry points and the total
computations they perform on non-empty input. -/

/-- On a non-empty system, `to_canonical_trans` succeeds with value `ctr`. -/
theorem to_canonical_trans_of_ne_nil {b : List (Int × Int)} (h : b ≠ []) :
    to_canonical_trans b = some (ctr b) := by
  cases b
  · exact absurd rfl h
  · rfl

/-- On a non-empty system, `to_canonical` succeeds with value `canonAux`. -/
theorem to_canonical_of_ne_nil {b : List (Int × Int)} (h : b ≠ []) :
    to_canonical b = some (canonAux b) := by
  cases b
  · exact absurd rfl h
  · rfl

/-- Rotation preserves non-emptiness. -/
theorem rotation_60_ne_nil {b : List (Int × Int)} (h : b ≠ []) : rotation_60 b ≠ [] := by
  cases b
  · exact absurd rfl h
  · simp [rotation_60]

/-- Reflection preserves non-emptiness. -/
theorem reflection_ne_nil {b : List (Int × Int)} (h : b ≠ []) : reflection b ≠ [] := by
  cases b
  · exact absurd rfl h
  · simp [reflection]

/-- Normalization preserves the number of hexagons. -/
theorem ctr_length : ∀ (x : List (Int × Int)), (ctr x).length = x.length
  | [] => rfl
  | p :: ps => by
      simp only [ctr]
      rw [List.length_insertionSort]
      simp

/-- Normalization preserves non-emptiness. -/
theorem ctr_ne_nil {y : List (Int × Int)} (h : y ≠ []) : ctr y ≠ [] := by
  intro hc
  have hl := ctr_length y
  rw [hc] at hl
  cases y
  · exact absurd rfl h
  · simp at hl

/-- Translation preserves non-emptiness. -/
theorem translate_ne_nil (d : Int × Int) {b : List (Int × Int)} (h : b ≠ []) :
    translate d b ≠ [] := by
  cases b
  · exact absurd rfl h
  · simp [translate]

/-- Canonicalizing after a rotation gives the canonical form of the original
system. -/
theorem to_canonical_rot {b : List (Int × Int)} (h : b ≠ []) :
    to_canonical (rotation_60 b) = to_canonical b := by
  rw [to_canonical_of_ne_nil (rotation_60_ne_nil h), to_canonical_of_ne_nil h, canonAux_rot]

/-- Canonicalizing after a reflection gives the canonical form of the original
system. -/
theorem to_canonical_refl {b : List (Int × Int)} (h : b ≠ []) :
    to_canonical (reflection b) = to_canonical b := by
  rw [to_canonical_of_ne_nil (reflection_ne_nil h), to_canonical_of_ne_nil h, canonAux_refl]

/-- Iterated rotation preserves non-emptiness. -/
theorem rotN_ne_nil : ∀ (k : Nat) {b : List (Int × Int)}, b ≠ [] → rotN k b ≠ []
  | 0, _, h => h
  | k + 1, _, h => rotation_60_ne_nil (rotN_ne_nil k h)

/-- Canonicalizing after any number of rotations gives the canonical form of
the original system. -/
theorem to_canonical_rotN : ∀ (k : Nat) {b : List (Int × Int)}, b ≠ [] →
    to_canonical (rotN k b) = to_canonical b
  | 0, _, _ => rfl
  | k + 1, b, h => by
      rw [show rotN (k + 1) b = rotation_60 (rotN k b) from rfl,
        to_canonical_rot (rotN_ne_nil k h), to_canonical_rotN k h]

/-- Canonicalizing the normalized form of a system gives the canonical
computation of the system itself. -/
theorem canonAux_ctr (y : List (Int × Int)) (hy : y ≠ []) : canonAux (ctr y) = canonAux y := by
  obtain ⟨d, hperm⟩ := ctr_perm_translate y hy
  rw [canonAux_perm hperm, canonAux_translate]

/-- Helper equating the canonical form of an orbit entry with the canonical
form of the base system. -/
theorem to_canonical_ctr_eq {b y : List (Int × Int)} (hb : b ≠ []) (hy : y ≠ [])
    (hcan : canonAux y = canonAux b) : to_canonical (ctr y) = to_canonical b := by
  rw [to_canonical_of_ne_nil (ctr_ne_nil hy), canonAux_ctr y hy, hcan,
    to_canonical_of_ne_nil hb]

/-- Every entry of the orbit list has the same canonical form as the base
system. -/
theorem orbit_entry_to_canonical {b : List (Int × Int)} (hb : b ≠ []) :
    ∀ x ∈ orbitList b, to_canonical x = to_canonical b := by
  intro x hx
  have h1 : rotation_60 b ≠ [] := rotation_60_ne_nil hb
  have h2 : rotation_60 (rotation_60 b) ≠ [] := rotation_60_ne_nil h1
  have h3 : rotation_60 (rotation_60 (rotation_60 b)) ≠ [] := rotation_60_ne_nil h2
  have h4 : rotation_60 (rotation_60 (rotation_60 (rotation_60 b))) ≠ [] :=
    rotation_60_ne_nil h3
  have h5 : rotation_60 (rotation_60 (rotation_60 (rotation_60 (rotation_60 b)))) ≠ [] :=
    rotation_60_ne_nil h4
  have g0 : reflection b ≠ [] := reflection_ne_nil hb
  have g1 : rotation_60 (reflection b) ≠ [] := rotation_60_ne_nil g0
  have g2 : rotation_60 (rotation_60 (reflection b)) ≠ [] := rotation_60_ne_nil g1
  have g3 : rotation_60 (rotation_60 (rotation_60 (reflection b))) ≠ [] :=
    rotation_60_ne_nil g2
  have g4 : rotation_60 (rotation_60 (rotation_60 (rotation_60 (reflection b)))) ≠ [] :=
    rotation_60_ne_nil g3
  have g5 : rotation_60 (rotation_60 (rotation_60 (rotation_60 (rotation_60 (reflection b)))))
      ≠ [] := rotation_60_ne_nil g4
  simp only [orbitList, List.cons_append, List.nil_append, List.mem_cons,
    List.not_mem_nil, or_false] at hx
  rcases hx with h | h | h | h | h | h | h | h | h | h | h | h <;> rw [h]
  · exact to_canonical_ctr_eq hb hb rfl
  · exact to_canonical_ctr_eq hb h1 (by simp only [canonAux_rot])
  · exact to_canonical_ctr_eq hb h2 (by simp only [canonAux_rot])
  · exact to_canonical_ctr_eq hb h3 (by simp only [canonAux_rot])
  · exact to_canonical_ctr_eq hb h4 (by simp only [canonAux_rot])
  · exact to_canonical_ctr_eq hb h5 (by simp only [canonAux_rot])
  · exact to_canonical_ctr_eq hb g0 (canonAux_refl b)
  · exact to_canonical_ctr_eq hb g1 (by simp only [canonAux_rot, canonAux_refl])
  · exact to_canonical_ctr_eq hb g2 (by simp only [canonAux_rot, canonAux_refl])
  · exact to_canonical_ctr_eq hb g3 (by simp only [canonAux_rot, canonAux_refl])
  · exact to_canonical_ctr_eq hb g4 (by simp only [canonAux_rot, canonAux_refl])
  · exact to_canonical_ctr_eq hb g5 (by simp only [canonAux_rot, canonAux_refl])

/-! Claim theorems. -/

/-- Claim C1: for every non-empty benzenoid system `b` and each of the twelve
symmetry transforms, `k` rotations by sixty degrees (`0 ≤ k ≤ 5`) optionally
followed by the reflection, the canonical form of the transformed system
equals the canonical form of `b`. -/
theorem c1_symmetry_invariance (b : List (Int × Int)) (hb : b ≠ [])
    (k : Nat) (hk : k ≤ 5) :
    to_canonical (rotN k b) = to_canonical b ∧
      to_canonical (reflection (rotN k b)) = to_canonical b := by
  refine ⟨to_canonical_rotN k hb, ?_⟩
  rw [to_canonical_refl (rotN_ne_nil k hb), to_canonical_rotN k hb]

/-- Witness for C1 at the two-hexagon system `[(0,0), (0,1)]` with `k = 3`. -/
theorem c1_symmetry_invariance_witness :
    to_canonical (rotN 3 [((0 : Int), (0 : Int)), (0, 1)])
        = to_canonical [((0 : Int), (0 : Int)), (0, 1)] ∧
      to_canonical (reflection (rotN 3 [((0 : Int), (0 : Int)), (0, 1)]))
        = to_canonical [((0 : Int), (0 : Int)), (0, 1)] :=
  c1_symmetry_invariance [((0 : Int), (0 : Int)), (0, 1)] (by decide) 3 (by decide)

/-- Claim C2: re-canonicalizing the canonical form of a system, viewed as a
system again, returns the same canonical form. -/
theorem c2_recanonicalization (b l : List (Int × Int)) (h : to_canonical b = some l) :
    to_canonical l = to_canonical b := by
  have hb : b ≠ [] := by
    intro hnil
    rw [hnil] at h
    exact Option.noConfusion h
  rw [to_canonical_of_ne_nil hb] at h
  injection h with h
  subst h
  exact orbit_entry_to_canonical hb (canonAux b) (canonAux_isMin b).1

/-- Witness for C2 at the two-hexagon system `[(0,0), (0,1)]`, whose canonical
form is itself. -/
theorem c2_recanonicalization_witness :
    to_canonical [((0 : Int), (0 : Int)), (0, 1)]
      = to_canonical [((0 : Int), (0 : Int)), (0, 1)] :=
  c2_recanonicalization [((0 : Int), (0 : Int)), (0, 1)]
    [((0 : Int), (0 : Int)), (0, 1)] (by decide)

/-- Claim C5: the canonical form is invariant under translating every
coordinate by the same vector `(di, dj)`; in particular the two listed
concrete systems have equal canonical forms. -/
theorem c5_translation_invariance :
    (∀ (b : List (Int × Int)), b ≠ [] → ∀ (di dj : Int),
        to_canonical (b.map (fun q => (q.1 + di, q.2 + dj))) = to_canonical b) ∧
      to_canonical [(1, 2), (1, 3), (2, 2)] = to_canonical [(0, 0), (0, 1), (1, 0)] := by
  constructor
  · intro b hb di dj
    rw [show b.map (fun q => (q.1 + di, q.2 + dj)) = translate (di, dj) b from rfl]
    rw [to_canonical_of_ne_nil (translate_ne_nil (di, dj) hb),
      to_canonical_of_ne_nil hb, canonAux_translate]
  · decide

/-- Witness for C5: translating `[(0,0), (0,1), (1,0)]` by `(1, 2)`. -/
theorem c5_translation_invariance_witness :
    to_canonical ([((0 : Int), (0 : Int)), (0, 1), (1, 0)].map (fun q => (q.1 + 1, q.2 + 2)))
      = to_canonical [((0 : Int), (0 : Int)), (0, 1), (1, 0)] :=
  c5_translation_invariance.1 [((0 : Int), (0 : Int)), (0, 1), (1, 0)] (by decide) 1 2

/-- Claim C7: on the empty system, the translation normalization and hence
the canonicalization fail (Python's `min` of an empty collection raises),
modelled by the `none` result, rather than returning a value. -/
theorem c7_empty_input_fails :
    to_canonical_trans ([] : List (Int × Int)) = none ∧
      to_canonical ([] : List (Int × Int)) = none :=
  ⟨rfl, rfl⟩

/-- Subtracting a constant commutes with the running minimum of a list of
integers. -/
theorem foldl_min_sub (c : Int) : ∀ (l : List Int) (a : Int),
    (l.map (fun t => t - c)).foldl min (a - c) = l.foldl min a - c
  | [], _ => rfl
  | x :: l, a => by
      simp only [List.map_cons, List.foldl_cons]
      have h : min (a - c) (x - c) = min a x - c := by omega
      rw [h]
      exact foldl_min_sub c l (min a x)

/-- Claim C8: on a non-empty system, `to_canonical_trans` returns the system
with the per-axis minima subtracted from every coordinate, sorted in the
lexicographic order, and the minimum first and second coordinates of the
output are both zero. -/
theorem c8_to_canonical_trans_spec (b : List (Int × Int)) (hb : b ≠ [])
    (iM jM : Int) (hiM : (b.map Prod.fst).min? = some iM)
    (hjM : (b.map Prod.snd).min? = some jM) :
    ∃ l, to_canonical_trans b = some l ∧
      l.Perm (b.map (fun q => (q.1 - iM, q.2 - jM))) ∧
      List.Sorted rle l ∧
      (l.map Prod.fst).min? = some 0 ∧ (l.map Prod.snd).min? = some 0 := by
  cases b with
  | nil => exact absurd rfl hb
  | cons p ps =>
    simp only [List.map_cons, List.min?] at hiM hjM
    injection hiM with hiM0
    injection hjM with hjM0
    have hiM1 : ps.foldl (fun m q => min m q.1) p.1 = iM := by
      rw [← hiM0, List.foldl_map]
    have hjM1 : ps.foldl (fun m q => min m q.2) p.2 = jM := by
      rw [← hjM0, List.foldl_map]
    have hperm : (ctr (p :: ps)).Perm
        ((p :: ps).map (fun q => (q.1 - iM, q.2 - jM))) := by
      simp only [ctr]
      rw [hiM1, hjM1]
      exact List.perm_insertionSort rle _
    refine ⟨ctr (p :: ps), rfl, hperm, ?_, ?_, ?_⟩
    · simp only [ctr]
      rw [hiM1, hjM1]
      exact List.sorted_insertionSort rle _
    · rw [intMin?_perm (hperm.map Prod.fst)]
      have hmm : ((p :: ps).map (fun q : Int × Int => (q.1 - iM, q.2 - jM))).map Prod.fst
          = ((p :: ps).map Prod.fst).map (fun t => t - iM) := by
        rw [List.map_map, List.map_map]
        apply List.map_congr_left
        intro q _
        rfl
      rw [hmm]
      simp only [List.map_cons, List.min?]
      rw [foldl_min_sub iM (ps.map Prod.fst) p.1, hiM0]
      simp
    · rw [intMin?_perm (hperm.map Prod.snd)]
      have hmm : ((p :: ps).map (fun q : Int × Int => (q.1 - iM, q.2 - jM))).map Prod.snd
          = ((p :: ps).map Prod.snd).map (fun t => t - jM) := by
        rw [List.map_map, List.map_map]
        apply List.map_congr_left
        intro q _
        rfl
      rw [hmm]
      simp only [List.map_cons, List.min?]
      rw [foldl_min_sub jM (ps.map Prod.snd) p.2, hjM0]
      simp

/-- Witness for C8 at the system `[(1,2), (1,3), (2,2)]`, whose per-axis
minima are `1` and `2`. -/
theorem c8_to_canonical_trans_spec_witness :
    ∃ l, to_canonical_trans [((1 : Int), (2 : Int)), (1, 3), (2, 2)] = some l ∧
      l.Perm ([((1 : Int), (2 : Int)), (1, 3), (2, 2)].map (fun q => (q.1 - 1, q.2 - 2))) ∧
      List.Sorted rle l ∧
      (l.map Prod.fst).min? = some 0 ∧ (l.map Prod.snd).min? = some 0 :=
  c8_to_canonical_trans_spec [((1 : Int), (2 : Int)), (1, 3), (2, 2)] (by decide)
    1 2 (by decide) (by decide)

/-- Claim C10: the coordinate actions of `rotation_60` and of `reflection`
preserve lattice adjacency: `b` is a neighbour of `a` exactly when the image
of `b` is a neighbour of the image of `a`. -/
theorem c10_symmetry_preserves_adjacency (a b : Int × Int) :
    (b ∈ neighbours a ↔ rotPt b ∈ neighbours (rotPt a)) ∧
      (b ∈ neighbours a ↔ refPt b ∈ neighbours (refPt a)) := by
  rcases a with ⟨i, j⟩
  rcases b with ⟨x, y⟩
  simp only [neighbours, rotPt, refPt, List.mem_cons, List.not_mem_nil, or_false,
    Prod.mk.injEq]
  omega

/-- Claim C9: for every integer `h ≤ 1`, including zero and negative values,
the growth loop runs zero times and `list_of_benzenoids` returns exactly the
benzene singleton. -/
theorem c9_nonpositive_h (h : Int) (hh : h ≤ 1) :
    list_of_benzenoids h = {[((0 : Int), (0 : Int))]} := by
  unfold list_of_benzenoids
  rw [show (h - 1).toNat = 0 from Int.toNat_of_nonpos (by omega)]
  rfl

/-- Witness for C9 at `h = 0`. -/
theorem c9_nonpositive_h_witness :
    list_of_benzenoids 0 = {[((0 : Int), (0 : Int))]} :=
  c9_nonpositive_h 0 (by decide)

/-- Claim C4: the enumeration reproduces the known small benzenoid counts:
one system of one hexagon (benzene), one canonical system of two hexagons,
and three canonical systems of three hexagons. -/
theorem c4_small_counts :
    list_of_benzenoids 1 = {[((0 : Int), (0 : Int))]} ∧
      (list_of_benzenoids 2).card = 1 ∧ (list_of_benzenoids 3).card = 3 :=
  ⟨by decide, by decide, by decide⟩

/-! Preservation of hexagon count and distinctness through the canonical
computation, used for the growth invariant. -/

/-- Rotation preserves the number of hexagons. -/
theorem rotation_60_length (y : List (Int × Int)) : (rotation_60 y).length = y.length :=
  List.length_map y rotPt

/-- Reflection preserves the number of hexagons. -/
theorem reflection_length (y : List (Int × Int)) : (reflection y).length = y.length :=
  List.length_map y refPt

/-- The canonical computation preserves the number of hexagons. -/
theorem canonAux_length (x : List (Int × Int)) : (canonAux x).length = x.length := by
  have hmem := (canonAux_isMin x).1
  simp only [orbitList, List.cons_append, List.nil_append, List.mem_cons,
    List.not_mem_nil, or_false] at hmem
  rcases hmem with h | h | h | h | h | h | h | h | h | h | h | h <;>
    rw [h] <;>
    simp only [ctr_length, rotation_60_length, reflection_length]

/-- The coordinate action of the rotation is injective. -/
theorem rotPt_injective : Function.Injective rotPt := by
  intro a b h
  rcases a with ⟨i, j⟩
  rcases b with ⟨x, y⟩
  simp only [rotPt, Prod.mk.injEq] at h ⊢
  omega

/-- The coordinate action of the reflection is injective. -/
theorem refPt_injective : Function.Injective refPt := by
  intro a b h
  rcases a with ⟨i, j⟩
  rcases b with ⟨x, y⟩
  simp only [refPt, Prod.mk.injEq] at h ⊢
  omega

/-- Rotation sends distinct hexagons to distinct hexagons. -/
theorem rotation_60_nodup {y : List (Int × Int)} (h : y.Nodup) : (rotation_60 y).Nodup :=
  h.map rotPt_injective

/-- Reflection sends distinct hexagons to distinct hexagons. -/
theorem reflection_nodup {y : List (Int × Int)} (h : y.Nodup) : (reflection y).Nodup :=
  h.map refPt_injective

/-- Normalization sends distinct hexagons to distinct hexagons. -/
theorem ctr_nodup : ∀ {x : List (Int × Int)}, x.Nodup → (ctr x).Nodup
  | [], h => h
  | p :: ps, h => by
      obtain ⟨d, hperm⟩ := ctr_perm_translate (p :: ps) (by simp)
      have hinj : Function.Injective (fun q : Int × Int => (q.1 + d.1, q.2 + d.2)) := by
        intro a b hab
        rcases a with ⟨i, j⟩
        rcases b with ⟨x, y⟩
        simp only [Prod.mk.injEq] at hab ⊢
        omega
      have htr : (translate d (p :: ps)).Nodup := h.map hinj
      exact hperm.symm.nodup htr

/-- The canonical computation sends distinct hexagons to distinct hexagons. -/
theorem canonAux_nodup {x : List (Int × Int)} (h : x.Nodup) : (canonAux x).Nodup := by
  have hmem := (canonAux_isMin x).1
  simp only [orbitList, List.cons_append, List.nil_append, List.mem_cons,
    List.not_mem_nil, or_false] at hmem
  rcases hmem with heq | heq | heq | heq | heq | heq | heq | heq | heq | heq | heq | heq <;>
    rw [heq] <;>
    (apply ctr_nodup
     repeat (first | exact h | apply rotation_60_nodup | apply reflection_nodup))

/-- Growth invariant: after `n` iterations of the loop every produced system
has exactly `n + 1` pairwise distinct hexagon coordinates. -/
theorem benzenoidStep_spec : ∀ (n : Nat), ∀ b ∈ benzenoidStep n,
    b.length = n + 1 ∧ b.Nodup
  | 0, b, hb => by
      simp only [benzenoidStep, Finset.mem_singleton] at hb
      subst hb
      exact ⟨rfl, by decide⟩
  | n + 1, b, hb => by
      simp only [benzenoidStep, growStep, Finset.mem_biUnion, Finset.mem_image] at hb
      obtain ⟨a, ha, hex, hhex, rfl⟩ := hb
      obtain ⟨hlen, hnodup⟩ := benzenoidStep_spec n a ha
      have hnotin : hex ∉ a := by
        simp only [layer_of_fat, Finset.mem_filter] at hhex
        exact hhex.2
      have hnodup2 : (a ++ [hex]).Nodup := by
        simp [List.nodup_append, hnodup, hnotin]
      refine ⟨?_, canonAux_nodup hnodup2⟩
      rw [canonAux_length]
      simp [hlen]

/-- Claim C3: for every integer `h ≥ 1`, every system in
`list_of_benzenoids h` consists of exactly `h` pairwise distinct coordinate
pairs. -/
theorem c3_exact_size (h : Int) (hh : 1 ≤ h) :
    ∀ b ∈ list_of_benzenoids h, (b.length : Int) = h ∧ b.Nodup := by
  intro b hb
  unfold list_of_benzenoids at hb
  obtain ⟨hlen, hnodup⟩ := benzenoidStep_spec (h - 1).toNat b hb
  refine ⟨?_, hnodup⟩
  rw [hlen]
  push_cast
  omega

/-- Witness for C3 at `h = 2` and the system `[(0,0), (0,1)]`. -/
theorem c3_exact_size_witness :
    (([((0 : Int), (0 : Int)), (0, 1)] : List (Int × Int)).length : Int) = 2 ∧
      ([((0 : Int), (0 : Int)), (0, 1)] : List (Int × Int)).Nodup :=
  c3_exact_size 2 (by decide) [((0 : Int), (0 : Int)), (0, 1)] (by decide)

/-- Counterexample to claim C6 as stated: the coordinate `(0,0)` already
belongs to `[(0,0)]`, yet appending it again changes the canonical form —
`to_canonical` keeps the duplicate instead of collapsing it. -/
theorem c6_duplicates_counterexample :
    ((0 : Int), (0 : Int)) ∈ [((0 : Int), (0 : Int))] ∧
      to_canonical ([((0 : Int), (0 : Int))] ++ [((0 : Int), (0 : Int))])
        ≠ to_canonical [((0 : Int), (0 : Int))] := by
  decide

/-- Claim C6 (amended): duplicate coordinates are not an error but they are
not collapsed either: appending to a non-empty system `b` a coordinate `c`
already present in `b` still canonicalizes successfully, but the result keeps
the duplicate — it has `b.length + 1` coordinates and differs from the
canonical form of `b`. -/
theorem c6_duplicates_kept (b : List (Int × Int)) (c : Int × Int)
    (hb : b ≠ []) (hc : c ∈ b) :
    ∃ l, to_canonical (b ++ [c]) = some l ∧ l.length = b.length + 1 ∧
      to_canonical (b ++ [c]) ≠ to_canonical b := by
  have hne : b ++ [c] ≠ [] := by
    cases b
    · exact absurd rfl hb
    · simp
  refine ⟨canonAux (b ++ [c]), to_canonical_of_ne_nil hne, ?_, ?_⟩
  · rw [canonAux_length]
    simp
  · rw [to_canonical_of_ne_nil hne, to_canonical_of_ne_nil hb]
    intro heq
    injection heq with heq
    have h1 : (canonAux (b ++ [c])).length = b.length + 1 := by
      rw [canonAux_length]
      simp
    have h2 : (canonAux b).length = b.length := canonAux_length b
    rw [heq, h2] at h1
    omega

/-- Witness for the amended C6 at `b = [(0,0)]`, `c = (0,0)`. -/
theorem c6_duplicates_kept_witness :
    ∃ l, to_canonical ([((0 : Int), (0 : Int))] ++ [((0 : Int), (0 : Int))]) = some l ∧
      l.length = [((0 : Int), (0 : Int))].length + 1 ∧
      to_canonical ([((0 : Int), (0 : Int))] ++ [((0 : Int), (0 : Int))])
        ≠ to_canonical [((0 : Int), (0 : Int))] :=
  c6_duplicates_kept [((0 : Int), (0 : Int))] ((0 : Int), (0 : Int))
    (by decide) (by decide)

end Benzenoid
